import Mathlib

/-! vegamcache: the replicated store and its merges

A shallow embedding of `cache.go`.

* `Value` is the Go struct of the same name.  `Data interface{}` is an
  `Option δ`, with `none` for Go's `nil`; `LastWrite` and `Expiry` are `int64`
  fields, kept as integers (the code only compares them; the one addition, in
  `Put`, is reduced to `int64` by `wrapInt64`).
* `sync.Map` and `map[string]Value` both are finite maps with one entry per
  key: an association list with distinct keys.  `Load`, `Store`, `Delete` and
  `Range` are the `sync.Map` methods; a `range` loop visits the entries in the
  order of the list, which is arbitrary.
* `time.Now().UnixNano()` is the parameter `now` of every operation that
  reads the clock: one reading for the whole call.  It counts the nanoseconds
  since the Unix epoch; where a statement depends on it, a clock reading is
  taken to be non-negative.
* Methods that mutate the receiver return the new state of the receiver.  The
  merge methods return the receiver itself as `mesh.GossipData`, so their
  result is that state.
* A failed type assertion `val.(Value)` is a panic: the operation returns
  `none`.
* `Encode` copies the store into `tmpMap` and hands it to `json.Marshal`;
  `tmpMap` is the snapshot that is serialised.
-/

namespace Vegamcache

/-- The struct `Value`. -/
structure Value (δ : Type) where
  Data : Option δ
  LastWrite : Int
  Expiry : Int
deriving DecidableEq, Repr

/-- A Go `map[string]Value`. -/
abbrev GoMap (δ : Type) := AList (fun _ : String => Value δ)

/-- A `sync.Map` holding `Value`s under `string` keys. -/
abbrev SyncMap (δ : Type) := AList (fun _ : String => Value δ)

namespace SyncMap

variable {δ : Type}

/-- The method `sync.Map.Load`: the value and `ok`, as an option. -/
def Load (m : SyncMap δ) (k : String) : Option (Value δ) := AList.lookup k m

/-- The method `sync.Map.Store`. -/
def Store (m : SyncMap δ) (k : String) (v : Value δ) : SyncMap δ := AList.insert k v m

/-- The method `sync.Map.Delete`. -/
def Delete (m : SyncMap δ) (k : String) : SyncMap δ := AList.erase k m

/-- The method `sync.Map.Range`: the entries, in the order they are visited. -/
def Range (m : SyncMap δ) : List (Sigma fun _ : String => Value δ) := m.entries

end SyncMap

/-- The struct `cache`. -/
structure cache (δ : Type) where
  set : SyncMap δ
deriving DecidableEq

/-- The struct `externalCache`. -/
structure externalCache (δ : Type) where
  cache : cache δ
deriving DecidableEq

/-- The constructor `NewCache`. -/
def NewCache {δ : Type} : externalCache δ := ⟨⟨∅⟩⟩

/-- Reduction of an integer to `int64` (two's complement). -/
def wrapInt64 (x : Int) : Int := (x + 2 ^ 63) % 2 ^ 64 - 2 ^ 63

namespace cache

variable {δ : Type}

/-- The method `get`: the returned pair and the cache after the call. -/
def get (c : cache δ) (now : Int) (key : String) : (Option δ × Bool) × cache δ :=
  match c.set.Load key with
  | some val =>
    if val.Expiry = 0 ∨ val.Expiry > now then
      ((val.Data, true), c)
    else
      ((none, false), ⟨c.set.Delete key⟩)
  | none => ((none, false), c)

/-- The method `put`. -/
def put (c : cache δ) (key : String) (val : Value δ) : cache δ :=
  ⟨c.set.Store key val⟩

/-- The loop shared by `Encode` and `Merge`: `tmpMap[k] = v` for every entry
that `Range` visits, starting from the map built so far. -/
def tmpMapLoop : List (Sigma fun _ : String => Value δ) → GoMap δ → GoMap δ
  | [], tmpMap => tmpMap
  | ⟨k, v⟩ :: rest, tmpMap => tmpMapLoop rest (AList.insert k v tmpMap)

/-- The map `tmpMap` that `Encode` hands to `json.Marshal`, and `Merge` to
`mergeComplete`. -/
def tmpMap (c : cache δ) : GoMap δ := tmpMapLoop c.set.Range ∅

/-- One iteration of the loop of `mergeComplete`, for the entry `k, v`. -/
def mergeCompleteStep (now : Int) (c : cache δ) (k : String) (v : Value δ) : cache δ :=
  match c.set.Load k with
  | none =>
    if v.Expiry < now then c
    else ⟨c.set.Store k v⟩
  | some val =>
    -- checking existing expiry
    let c1 : cache δ := if val.Expiry < now then ⟨c.set.Delete k⟩ else c
    if val.LastWrite < v.LastWrite then ⟨c1.set.Store k v⟩
    else c1

/-- The loop of `mergeComplete` over the entries of `other`. -/
def mergeCompleteLoop (now : Int) :
    List (Sigma fun _ : String => Value δ) → cache δ → cache δ
  | [], c => c
  | ⟨k, v⟩ :: rest, c => mergeCompleteLoop now rest (mergeCompleteStep now c k v)

/-- The method `mergeComplete`; the result is the receiver after the loop. -/
def mergeComplete (c : cache δ) (now : Int) (other : GoMap δ) : cache δ :=
  mergeCompleteLoop now other.entries c

/-- The method `Merge`. -/
def Merge (c : cache δ) (now : Int) (other : cache δ) : cache δ :=
  c.mergeComplete now other.tmpMap

/-- One iteration of the loop of `mergeDelta`, for the entry `k, v`.  `none` is
the run-time panic of the type assertion `val.(Value)` of line 111 on the nil
value that `Load` returns when the key has no entry. -/
def mergeDeltaStep (now : Int) (c : cache δ) (k : String) (v : Value δ) :
    Option (cache δ) :=
  match c.set.Load k with
  | some val =>
    if val.LastWrite > v.LastWrite then some ⟨c.set.Delete k⟩
    -- expired value is not added
    else if val.Expiry ≠ 0 ∧ val.Expiry < now then some ⟨c.set.Delete k⟩
    else some ⟨c.set.Store k v⟩
  | none => none

/-- The loop of `mergeDelta` over the entries of `set`. -/
def mergeDeltaLoop (now : Int) :
    List (Sigma fun _ : String => Value δ) → cache δ → Option (cache δ)
  | [], c => some c
  | ⟨k, v⟩ :: rest, c =>
    match mergeDeltaStep now c k v with
    | some c1 => mergeDeltaLoop now rest c1
    | none => none

/-- The method `mergeDelta`: the returned `delta` is the receiver, given here
in its state after the loop; `none` is a panic. -/
def mergeDelta (c : cache δ) (now : Int) (set : GoMap δ) : Option (cache δ) :=
  mergeDeltaLoop now set.entries c

/-- One iteration of the loop of `mergeRecived`, for the entry `k, v`.  `none`
is the run-time panic of the type assertion `val.(Value)` of line 131 on the
nil value that `Load` returns when the key has no entry. -/
def mergeRecivedStep (now : Int) (c : cache δ) (k : String) (v : Value δ) :
    Option (cache δ) :=
  match c.set.Load k with
  | some val =>
    if val.LastWrite > v.LastWrite then some ⟨c.set.Delete k⟩
    -- expired value is not added
    else if val.Expiry ≠ 0 ∧ val.Expiry < now then some ⟨c.set.Delete k⟩
    else some ⟨c.set.Store k v⟩
  | none => none

/-- The loop of `mergeRecived` over the entries of `set`. -/
def mergeRecivedLoop (now : Int) :
    List (Sigma fun _ : String => Value δ) → cache δ → Option (cache δ)
  | [], c => some c
  | ⟨k, v⟩ :: rest, c =>
    match mergeRecivedStep now c k v with
    | some c1 => mergeRecivedLoop now rest c1
    | none => none

/-- The method `mergeRecived`: the returned `recived` (`none` for nil, else
the receiver) paired with the state of the receiver after the loop; the outer
`none` is a panic. -/
def mergeRecived (c : cache δ) (now : Int) (set : GoMap δ) :
    Option (Option (cache δ) × cache δ) :=
  match mergeRecivedLoop now set.entries c with
  | some c1 =>
    if set.entries.length = 0 then some (none, c1)
    else some (some c1, c1)
  | none => none

/-- What one iteration of `mergeComplete` leaves under its own key, as a
function of the entry loaded for that key and the incoming entry. -/
def mergeCompleteKey (now : Int) (loc : Option (Value δ)) (v : Value δ) :
    Option (Value δ) :=
  match loc with
  | none => if v.Expiry < now then none else some v
  | some val =>
    if val.LastWrite < v.LastWrite then some v
    else if val.Expiry < now then none else some val

/-- What one iteration of `mergeDelta` (and of `mergeRecived`) leaves under its
own key when the key has the local entry `loc`. -/
def mergeDeltaKey (now : Int) (loc v : Value δ) : Option (Value δ) :=
  if loc.LastWrite > v.LastWrite then none
  else if loc.Expiry ≠ 0 ∧ loc.Expiry < now then none
  else some v

end cache

namespace externalCache

variable {δ : Type}

/-- The method `Get`. -/
def Get (ec : externalCache δ) (now : Int) (key : String) :
    (Option δ × Bool) × externalCache δ :=
  let r := ec.cache.get now key
  (r.1, ⟨r.2⟩)

/-- The method `Put`; `time.Now().Add(ttl).UnixNano()` is `now + ttl` as an
`int64`.  The literal `Value{Data: val, Expiry: expiryTime}` leaves `LastWrite`
at its zero value. -/
def Put (ec : externalCache δ) (now : Int) (key : String) (val : Option δ) (ttl : Int) :
    externalCache δ :=
  let expiryTime : Int := if ttl = 0 then 0 else wrapInt64 (now + ttl)
  ⟨ec.cache.put key { Data := val, LastWrite := 0, Expiry := expiryTime }⟩

end externalCache

/-! ## Concrete stores used in the examples -/

/-- The store with the single entry `k ↦ v`. -/
def single (k : String) (v : Value Nat) : cache Nat := ⟨AList.singleton k v⟩

/-- The mapping with the single entry `k ↦ v`. -/
def singleMap (k : String) (v : Value Nat) : GoMap Nat := AList.singleton k v

/-- The empty store. -/
def emptyCache : cache Nat := ⟨∅⟩

/-- The mapping with the two entries `k1 ↦ v1` and `k2 ↦ v2`, visited in this
order. -/
def pairMap (k1 : String) (v1 : Value Nat) (k2 : String) (v2 : Value Nat) : GoMap Nat :=
  AList.insert k1 v1 (AList.singleton k2 v2)

/-- Two incoming pairs, under the keys `a` and `b`. -/
def twoPairs : List (Sigma fun _ : String => Value Nat) :=
  [⟨"a", ⟨some 2, 20, 1000⟩⟩, ⟨"b", ⟨some 3, 5, 1000⟩⟩]

/-- The pairs of `twoPairs` in the other order. -/
def twoPairsSwapped : List (Sigma fun _ : String => Value Nat) :=
  [⟨"b", ⟨some 3, 5, 1000⟩⟩, ⟨"a", ⟨some 2, 20, 1000⟩⟩]

/-! ## The effect of a full merge on one key -/

namespace cache

variable {δ : Type}

theorem Load_Store_self (m : SyncMap δ) (k : String) (v : Value δ) :
    (m.Store k v).Load k = some v := by
  simp [SyncMap.Load, SyncMap.Store]

theorem Load_Store_ne (m : SyncMap δ) {k k' : String} (v : Value δ) (h : k' ≠ k) :
    (m.Store k v).Load k' = m.Load k' := by
  simp [SyncMap.Load, SyncMap.Store, AList.lookup_insert_ne h]

theorem Load_Delete_self (m : SyncMap δ) (k : String) :
    (m.Delete k).Load k = none := by
  simp [SyncMap.Load, SyncMap.Delete]

theorem Load_Delete_ne (m : SyncMap δ) {k k' : String} (h : k' ≠ k) :
    (m.Delete k).Load k' = m.Load k' := by
  simp [SyncMap.Load, SyncMap.Delete, AList.lookup_erase_ne h]

theorem Load_mergeCompleteStep_self (now : Int) (c : cache δ) (k : String) (v : Value δ) :
    (mergeCompleteStep now c k v).set.Load k = mergeCompleteKey now (c.set.Load k) v := by
  unfold mergeCompleteStep mergeCompleteKey
  cases hl : c.set.Load k with
  | none =>
    by_cases h : v.Expiry < now
    · simp [h, hl]
    · simp [h, Load_Store_self]
  | some val =>
    by_cases h1 : val.LastWrite < v.LastWrite
    · simp [h1, Load_Store_self]
    · by_cases h2 : val.Expiry < now
      · simp [h1, h2, Load_Delete_self]
      · simp [h1, h2, hl]

theorem Load_mergeCompleteStep_ne (now : Int) (c : cache δ) {k k' : String} (v : Value δ)
    (h : k' ≠ k) : (mergeCompleteStep now c k v).set.Load k' = c.set.Load k' := by
  unfold mergeCompleteStep
  cases c.set.Load k with
  | none =>
    by_cases h0 : v.Expiry < now
    · simp [h0]
    · simp [h0, Load_Store_ne _ _ h]
  | some val =>
    by_cases h1 : val.LastWrite < v.LastWrite <;> by_cases h2 : val.Expiry < now <;>
      simp [h1, h2, Load_Store_ne _ _ h, Load_Delete_ne _ h]

theorem Load_mergeCompleteLoop_of_not_mem (now : Int)
    (l : List (Sigma fun _ : String => Value δ)) (c : cache δ) (k : String)
    (h : k ∉ l.keys) : (mergeCompleteLoop now l c).set.Load k = c.set.Load k := by
  induction l generalizing c with
  | nil => rfl
  | cons e rest ih =>
    obtain ⟨k0, v0⟩ := e
    simp only [List.keys_cons, List.mem_cons, not_or] at h
    rw [mergeCompleteLoop, ih _ h.2, Load_mergeCompleteStep_ne now c v0 h.1]

theorem Load_mergeCompleteLoop_of_mem (now : Int)
    (l : List (Sigma fun _ : String => Value δ)) (hl : l.NodupKeys) (c : cache δ)
    (k : String) (v : Value δ) (h : Sigma.mk k v ∈ l) :
    (mergeCompleteLoop now l c).set.Load k = mergeCompleteKey now (c.set.Load k) v := by
  induction l generalizing c with
  | nil => simp at h
  | cons e rest ih =>
    obtain ⟨k0, v0⟩ := e
    rw [List.nodupKeys_cons] at hl
    rw [mergeCompleteLoop]
    rcases List.mem_cons.1 h with heq | hmem
    · injection heq with hk hv
      subst hk
      subst hv
      rw [Load_mergeCompleteLoop_of_not_mem now rest _ k hl.1, Load_mergeCompleteStep_self]
    · have hne : k ≠ k0 := by
        intro hk
        subst hk
        exact hl.1 (List.mem_keys.2 ⟨v, hmem⟩)
      rw [ih hl.2 _ hmem, Load_mergeCompleteStep_ne now c v0 hne]

/-- The store after `mergeComplete`, key by key. -/
theorem Load_mergeComplete (c : cache δ) (now : Int) (other : GoMap δ) (k : String) :
    (c.mergeComplete now other).set.Load k =
      match other.lookup k with
      | none => c.set.Load k
      | some v => mergeCompleteKey now (c.set.Load k) v := by
  unfold mergeComplete
  cases ho : other.lookup k with
  | none =>
    have hk : k ∉ other.entries.keys := by
      have := AList.lookup_eq_none.1 ho
      simpa [AList.mem_keys, AList.keys] using this
    simp [Load_mergeCompleteLoop_of_not_mem now _ c k hk]
  | some v =>
    have hm : Sigma.mk k v ∈ other.entries := AList.mem_lookup_iff.1 ho
    simp [Load_mergeCompleteLoop_of_mem now _ other.nodupKeys c k v hm]

end cache

/-- The map built by the `Range` loop holds exactly the entries it visited. -/
theorem lookup_tmpMapLoop {δ : Type} (l : List (Sigma fun _ : String => Value δ))
    (hl : l.NodupKeys) (m : GoMap δ) (k : String) :
    AList.lookup k (cache.tmpMapLoop l m) = (l.dlookup k).orElse (fun _ => AList.lookup k m) := by
  induction l generalizing m with
  | nil => simp [cache.tmpMapLoop]
  | cons e rest ih =>
    obtain ⟨k0, v0⟩ := e
    rw [List.nodupKeys_cons] at hl
    rw [cache.tmpMapLoop, ih hl.2]
    by_cases hk : k = k0
    · subst hk
      have hnone : rest.dlookup k = none := List.dlookup_eq_none.2 hl.1
      simp [hnone]
    · rw [List.dlookup_cons_ne rest ⟨k0, v0⟩ hk, AList.lookup_insert_ne hk]

/-- The map `tmpMap` has the entries of the store. -/
theorem lookup_tmpMap {δ : Type} (c : cache δ) (k : String) :
    AList.lookup k c.tmpMap = c.set.Load k := by
  unfold cache.tmpMap SyncMap.Range
  rw [lookup_tmpMapLoop _ c.set.nodupKeys]
  simp [SyncMap.Load, AList.lookup]

/-! ## Lemmas on the concrete stores -/

theorem lookup_singleMap (k0 : String) (v : Value Nat) (k : String) :
    AList.lookup k (singleMap k0 v) = if k = k0 then some v else none := by
  by_cases hk : k = k0
  · subst hk
    simp [singleMap, AList.lookup, AList.singleton]
  · simp [singleMap, AList.lookup, AList.singleton, hk,
      List.dlookup_cons_ne [] (⟨k0, v⟩ : Sigma fun _ : String => Value Nat) hk]

theorem Load_single (k0 : String) (v : Value Nat) (k : String) :
    (single k0 v).set.Load k = if k = k0 then some v else none :=
  lookup_singleMap k0 v k

/-! ## Full merge: last write wins -/

/-- C1: for a key present in the local store and in the mapping given to
`mergeComplete`, if the local entry's `LastWrite` is strictly less than the
incoming entry's, the store maps the key to exactly the incoming entry after
the merge, whatever the expiry of either entry. -/
theorem mergeComplete_newer_incoming_wins {δ : Type} (c : cache δ) (now : Int)
    (other : GoMap δ) (k : String) (loc v : Value δ)
    (hloc : c.set.Load k = some loc) (hv : AList.lookup k other = some v)
    (hlt : loc.LastWrite < v.LastWrite) :
    (c.mergeComplete now other).set.Load k = some v := by
  rw [cache.Load_mergeComplete, hv, hloc]
  simp [cache.mergeCompleteKey, hlt]

/-- C1 at the example of the claim: local `{1, 10, 0}`, incoming `{2, 20, 0}`. -/
theorem mergeComplete_newer_incoming_wins_witness :
    ((single "k" ⟨some 1, 10, 0⟩).set.Load "k" = some ⟨some 1, 10, 0⟩ ∧
      AList.lookup "k" (singleMap "k" ⟨some 2, 20, 0⟩)
        = some ⟨some 2, 20, 0⟩ ∧
      (10 : Int) < 20) ∧
    ((single "k" ⟨some 1, 10, 0⟩).mergeComplete 100
      (singleMap "k" ⟨some 2, 20, 0⟩)).set.Load "k" = some ⟨some 2, 20, 0⟩ :=
  ⟨by decide,
   mergeComplete_newer_incoming_wins (single "k" ⟨some 1, 10, 0⟩) 100
     (singleMap "k" ⟨some 2, 20, 0⟩) "k" ⟨some 1, 10, 0⟩ ⟨some 2, 20, 0⟩
     (by decide) (by decide) (by decide)⟩

/-- C2, the code at the failing input: the local entry `{1, 10, 0}` never
expires and the incoming entry `{2, 5, 0}` is older, yet at clock reading 100
`mergeComplete` deletes the local entry (line 92 tests `Expiry < now` without
the `Expiry != 0` test) and leaves the key without an entry. -/
theorem mergeComplete_deletes_unexpiring_local :
    (single "k" ⟨some 1, 10, 0⟩).set.Load "k" = some ⟨some 1, 10, 0⟩ ∧
    ((single "k" ⟨some 1, 10, 0⟩).mergeComplete 100
      (singleMap "k" ⟨some 2, 5, 0⟩)).set.Load "k" = none := by
  decide

/-- C3, the code at the failing input: the store has no entry for `k` and the
incoming entry `{2, 20, 0}` never expires, yet at clock reading 100
`mergeComplete` skips it (line 85 tests `Expiry < now` without the
`Expiry != 0` test): the store still has no entry for `k`. -/
theorem mergeComplete_skips_unexpiring_incoming :
    emptyCache.set.Load "k" = none ∧
    (emptyCache.mergeComplete 100
      (singleMap "k" ⟨some 2, 20, 0⟩)).set.Load "k" = none := by
  decide

/-! ## Full merge: idempotence and order of merges -/

/-- Applying the same incoming entry twice to a key gives what applying it
once gives, when the entry that the `LastWrite` comparison selects is not
past its expiry. -/
theorem mergeCompleteKey_twice {δ : Type} (now : Int) (s : Option (Value δ)) (v : Value δ)
    (h : ∀ loc, s = some loc →
      (loc.LastWrite < v.LastWrite → now ≤ v.Expiry) ∧
      (¬ loc.LastWrite < v.LastWrite → now ≤ loc.Expiry)) :
    cache.mergeCompleteKey now (cache.mergeCompleteKey now s v) v =
      cache.mergeCompleteKey now s v := by
  cases s with
  | none =>
    by_cases h0 : v.Expiry < now
    · simp [cache.mergeCompleteKey, h0]
    · simp [cache.mergeCompleteKey, h0]
  | some loc =>
    obtain ⟨h1, h2⟩ := h loc rfl
    by_cases hlt : loc.LastWrite < v.LastWrite
    · have hv : ¬ v.Expiry < now := not_lt.2 (h1 hlt)
      simp [cache.mergeCompleteKey, hlt, hv]
    · have hl : ¬ loc.Expiry < now := not_lt.2 (h2 hlt)
      simp [cache.mergeCompleteKey, hlt, hl]

/-- C4 as stated fails: (1) the local entry `{1, 10, 50}` is past its expiry
at clock reading 100 and the incoming entry `{2, 5, 1000}` is older: the first
merge deletes the local entry, the second adopts the incoming one; (2) the
incoming entry `{2, 20, 50}` is newer than the local `{1, 10, 1000}` and past
its expiry: the first merge stores it, the second deletes it. -/
theorem mergeComplete_twice_differs :
    (((single "k" ⟨some 1, 10, 50⟩).mergeComplete 100
        (singleMap "k" ⟨some 2, 5, 1000⟩)).mergeComplete 100
        (singleMap "k" ⟨some 2, 5, 1000⟩)).set.Load "k" ≠
      ((single "k" ⟨some 1, 10, 50⟩).mergeComplete 100
        (singleMap "k" ⟨some 2, 5, 1000⟩)).set.Load "k" ∧
    (((single "k" ⟨some 1, 10, 1000⟩).mergeComplete 100
        (singleMap "k" ⟨some 2, 20, 50⟩)).mergeComplete 100
        (singleMap "k" ⟨some 2, 20, 50⟩)).set.Load "k" ≠
      ((single "k" ⟨some 1, 10, 1000⟩).mergeComplete 100
        (singleMap "k" ⟨some 2, 20, 50⟩)).set.Load "k" := by
  decide

/-- C4, amended: merging the mapping twice leaves the store with the same
contents as merging it once, provided that for every key of the mapping that
has a local entry, the entry selected by the `LastWrite` comparison (the
incoming one if the local `LastWrite` is strictly less, the local one
otherwise) has `Expiry >= now`. -/
theorem mergeComplete_idempotent_of_selected_live {δ : Type} (c : cache δ) (now : Int)
    (other : GoMap δ)
    (h : ∀ k loc v, c.set.Load k = some loc → AList.lookup k other = some v →
      (loc.LastWrite < v.LastWrite → now ≤ v.Expiry) ∧
      (¬ loc.LastWrite < v.LastWrite → now ≤ loc.Expiry)) :
    ∀ k, ((c.mergeComplete now other).mergeComplete now other).set.Load k =
      (c.mergeComplete now other).set.Load k := by
  intro k
  rw [cache.Load_mergeComplete (c.mergeComplete now other), cache.Load_mergeComplete c]
  cases ho : AList.lookup k other with
  | none => rfl
  | some v => exact mergeCompleteKey_twice now _ v (fun loc hloc => h k loc v hloc ho)

/-- C4, amended, at a store whose entry `{1, 10, 0}` is replaced by the newer
`{2, 20, 1000}`, at clock reading 100. -/
theorem mergeComplete_idempotent_of_selected_live_witness :
    (∀ k loc v, (single "k" ⟨some 1, 10, 0⟩).set.Load k = some loc →
      AList.lookup k (singleMap "k" ⟨some 2, 20, 1000⟩) = some v →
      (loc.LastWrite < v.LastWrite → (100 : Int) ≤ v.Expiry) ∧
      (¬ loc.LastWrite < v.LastWrite → (100 : Int) ≤ loc.Expiry)) ∧
    (((single "k" ⟨some 1, 10, 0⟩).mergeComplete 100
        (singleMap "k" ⟨some 2, 20, 1000⟩)).mergeComplete 100
        (singleMap "k" ⟨some 2, 20, 1000⟩)).set.Load "k" = some ⟨some 2, 20, 1000⟩ ∧
    ((single "k" ⟨some 1, 10, 0⟩).mergeComplete 100
        (singleMap "k" ⟨some 2, 20, 1000⟩)).set.Load "k" = some ⟨some 2, 20, 1000⟩ := by
  have hyp : ∀ k loc v, (single "k" ⟨some 1, 10, 0⟩).set.Load k = some loc →
      AList.lookup k (singleMap "k" ⟨some 2, 20, 1000⟩) = some v →
      (loc.LastWrite < v.LastWrite → (100 : Int) ≤ v.Expiry) ∧
      (¬ loc.LastWrite < v.LastWrite → (100 : Int) ≤ loc.Expiry) := by
    intro k loc v hloc hv
    rw [lookup_singleMap] at hv
    rw [Load_single] at hloc
    by_cases hk : k = "k"
    · rw [if_pos hk] at hv hloc
      have e1 : loc = ⟨some 1, 10, 0⟩ := (Option.some.inj hloc).symm
      have e2 : v = ⟨some 2, 20, 1000⟩ := (Option.some.inj hv).symm
      subst e1 e2
      decide
    · rw [if_neg hk] at hv
      cases hv
  have once : ((single "k" ⟨some 1, 10, 0⟩).mergeComplete 100
      (singleMap "k" ⟨some 2, 20, 1000⟩)).set.Load "k" = some ⟨some 2, 20, 1000⟩ := by
    decide
  exact ⟨hyp,
    (mergeComplete_idempotent_of_selected_live _ 100 _ hyp "k").trans once, once⟩

/-- C5, the code at the failing input: store `A` is empty and store `B` holds
`k ↦ {7, 0, 0}`, an entry that never expires (what `Put("k", 7, 0)` stores).
After `A.Merge(B)` and `B.Merge(A)` at clock reading 100, `get` finds nothing
on `A`, which skipped the entry (line 85), and finds the value on `B`. -/
theorem Merge_mutual_get_differs :
    ((emptyCache.Merge 100 (single "k" ⟨some 7, 0, 0⟩)).get 100 "k").1 = (none, false) ∧
    (((single "k" ⟨some 7, 0, 0⟩).Merge 100 emptyCache).get 100 "k").1 = (some 7, true) := by
  decide

/-- Two incoming entries applied to one key in either order give the same
entry, when they are equal or differ in `LastWrite` and none of the entries
involved is past its expiry. -/
theorem mergeCompleteKey_comm {δ : Type} (now : Int) (s : Option (Value δ)) (x y : Value δ)
    (hxy : x = y ∨ x.LastWrite ≠ y.LastWrite) (hx : now ≤ x.Expiry) (hy : now ≤ y.Expiry)
    (hs : ∀ loc, s = some loc → now ≤ loc.Expiry) :
    cache.mergeCompleteKey now (cache.mergeCompleteKey now s x) y =
      cache.mergeCompleteKey now (cache.mergeCompleteKey now s y) x := by
  rcases hxy with heq | hne
  · subst heq
    rfl
  · have hx0 : ¬ x.Expiry < now := not_lt.2 hx
    have hy0 : ¬ y.Expiry < now := not_lt.2 hy
    cases s with
    | none =>
      rcases lt_or_gt_of_ne hne with hlt | hgt
      · have hng : ¬ y.LastWrite < x.LastWrite := not_lt.2 (le_of_lt hlt)
        simp [cache.mergeCompleteKey, hx0, hy0, hlt, hng]
      · have hng : ¬ x.LastWrite < y.LastWrite := not_lt.2 (le_of_lt hgt)
        simp [cache.mergeCompleteKey, hx0, hy0, hgt, hng]
    | some loc =>
      have hl0 : ¬ loc.Expiry < now := not_lt.2 (hs loc rfl)
      by_cases h1 : loc.LastWrite < x.LastWrite <;>
        by_cases h2 : loc.LastWrite < y.LastWrite <;>
        by_cases h3 : x.LastWrite < y.LastWrite <;>
        by_cases h4 : y.LastWrite < x.LastWrite <;>
        first
          | (exfalso; omega)
          | simp [cache.mergeCompleteKey, hx0, hy0, hl0, h1, h2, h3, h4]

/-- C6 as stated fails: on the empty store at clock reading 100, with
`X = {k ↦ {1, 10, 1000}}` and `Y = {k ↦ {2, 10, 1000}}` (equal `LastWrite`),
merging `X` then `Y` keeps the entry of `X`, merging `Y` then `X` that of `Y`. -/
theorem mergeComplete_order_differs :
    ((emptyCache.mergeComplete 100 (singleMap "k" ⟨some 1, 10, 1000⟩)).mergeComplete 100
        (singleMap "k" ⟨some 2, 10, 1000⟩)).set.Load "k" = some ⟨some 1, 10, 1000⟩ ∧
    ((emptyCache.mergeComplete 100 (singleMap "k" ⟨some 2, 10, 1000⟩)).mergeComplete 100
        (singleMap "k" ⟨some 1, 10, 1000⟩)).set.Load "k" = some ⟨some 2, 10, 1000⟩ := by
  decide

/-- C6, amended: merging `X` then `Y` leaves the store with the same contents
as merging `Y` then `X`, provided that for every key that occurs in both
mappings the two incoming entries are equal or have different `LastWrite`,
and both of them and the local entry for that key, if there is one, have
`Expiry >= now`. -/
theorem mergeComplete_comm_of_live_distinct {δ : Type} (c : cache δ) (now : Int)
    (X Y : GoMap δ)
    (h : ∀ k x y, AList.lookup k X = some x → AList.lookup k Y = some y →
      (x = y ∨ x.LastWrite ≠ y.LastWrite) ∧ now ≤ x.Expiry ∧ now ≤ y.Expiry ∧
      ∀ loc, c.set.Load k = some loc → now ≤ loc.Expiry) :
    ∀ k, ((c.mergeComplete now X).mergeComplete now Y).set.Load k =
      ((c.mergeComplete now Y).mergeComplete now X).set.Load k := by
  intro k
  rw [cache.Load_mergeComplete (c.mergeComplete now X), cache.Load_mergeComplete c,
    cache.Load_mergeComplete (c.mergeComplete now Y), cache.Load_mergeComplete c]
  cases hX : AList.lookup k X with
  | none =>
    cases hY : AList.lookup k Y with
    | none => rfl
    | some y => rfl
  | some x =>
    cases hY : AList.lookup k Y with
    | none => rfl
    | some y =>
      obtain ⟨h1, h2, h3, h4⟩ := h k x y hX hY
      exact mergeCompleteKey_comm now _ x y h1 h2 h3 h4

/-- C6, amended, at the store `{k ↦ {1, 10, 1000}}` with
`X = {k ↦ {2, 20, 1000}}` and `Y = {k ↦ {3, 30, 1000}}`, at clock reading 100:
both orders end with the entry of `Y`. -/
theorem mergeComplete_comm_of_live_distinct_witness :
    (∀ k x y, AList.lookup k (singleMap "k" ⟨some 2, 20, 1000⟩) = some x →
      AList.lookup k (singleMap "k" ⟨some 3, 30, 1000⟩) = some y →
      (x = y ∨ x.LastWrite ≠ y.LastWrite) ∧ (100 : Int) ≤ x.Expiry ∧ (100 : Int) ≤ y.Expiry ∧
      ∀ loc, (single "k" ⟨some 1, 10, 1000⟩).set.Load k = some loc →
        (100 : Int) ≤ loc.Expiry) ∧
    (((single "k" ⟨some 1, 10, 1000⟩).mergeComplete 100
        (singleMap "k" ⟨some 2, 20, 1000⟩)).mergeComplete 100
        (singleMap "k" ⟨some 3, 30, 1000⟩)).set.Load "k" = some ⟨some 3, 30, 1000⟩ ∧
    (((single "k" ⟨some 1, 10, 1000⟩).mergeComplete 100
        (singleMap "k" ⟨some 3, 30, 1000⟩)).mergeComplete 100
        (singleMap "k" ⟨some 2, 20, 1000⟩)).set.Load "k" = some ⟨some 3, 30, 1000⟩ := by
  have hyp : ∀ k x y, AList.lookup k (singleMap "k" ⟨some 2, 20, 1000⟩) = some x →
      AList.lookup k (singleMap "k" ⟨some 3, 30, 1000⟩) = some y →
      (x = y ∨ x.LastWrite ≠ y.LastWrite) ∧ (100 : Int) ≤ x.Expiry ∧ (100 : Int) ≤ y.Expiry ∧
      ∀ loc, (single "k" ⟨some 1, 10, 1000⟩).set.Load k = some loc →
        (100 : Int) ≤ loc.Expiry := by
    intro k x y hx hy
    rw [lookup_singleMap] at hx hy
    by_cases hk : k = "k"
    · rw [if_pos hk] at hx hy
      have e1 : x = ⟨some 2, 20, 1000⟩ := (Option.some.inj hx).symm
      have e2 : y = ⟨some 3, 30, 1000⟩ := (Option.some.inj hy).symm
      subst e1 e2
      refine ⟨by decide, by decide, by decide, ?_⟩
      intro loc hloc
      rw [Load_single, if_pos hk] at hloc
      have e3 : loc = ⟨some 1, 10, 1000⟩ := (Option.some.inj hloc).symm
      subst e3
      decide
    · rw [if_neg hk] at hx
      cases hx
  have yx : (((single "k" ⟨some 1, 10, 1000⟩).mergeComplete 100
      (singleMap "k" ⟨some 3, 30, 1000⟩)).mergeComplete 100
      (singleMap "k" ⟨some 2, 20, 1000⟩)).set.Load "k" = some ⟨some 3, 30, 1000⟩ := by
    decide
  exact ⟨hyp,
    (mergeComplete_comm_of_live_distinct _ 100 _ _ hyp "k").trans yx, yx⟩

/-! ## Reading and writing the store -/

/-- C7, the code at the failing input: the entry `{1, 0, 100}` is not expired
at clock reading 100 in the sense of the claim (`Expiry != 0` and
`Expiry < now` does not hold), yet `get` returns `(nil, false)` and deletes
the entry, because line 154 requires `Expiry > now`. -/
theorem get_at_expiry_instant :
    (single "k" ⟨some 1, 0, 100⟩).set.Load "k" = some ⟨some 1, 0, 100⟩ ∧
    ¬ ((100 : Int) ≠ 0 ∧ (100 : Int) < 100) ∧
    ((single "k" ⟨some 1, 0, 100⟩).get 100 "k").1 = (none, false) ∧
    ((single "k" ⟨some 1, 0, 100⟩).get 100 "k").2.set.Load "k" = none := by
  decide

/-- C8: if the store holds for `key` an entry with `Expiry != 0` and
`Expiry < now`, then `get` returns `(nil, false)`, and after the call the
store has no entry for `key`, `key` is not a key of the map that `Encode`
serialises, and the entry of every other key is unchanged. -/
theorem get_expired_prunes {δ : Type} (c : cache δ) (now : Int) (key : String)
    (e : Value δ) (hl : c.set.Load key = some e) (h0 : e.Expiry ≠ 0)
    (hlt : e.Expiry < now) :
    (c.get now key).1 = (none, false) ∧
    (c.get now key).2.set.Load key = none ∧
    key ∉ (c.get now key).2.tmpMap.keys ∧
    ∀ k, k ≠ key → (c.get now key).2.set.Load k = c.set.Load k := by
  have hg : c.get now key = ((none, false), ⟨c.set.Delete key⟩) := by
    have hn : ¬ (e.Expiry = 0 ∨ e.Expiry > now) := by
      rintro (h | h)
      · exact h0 h
      · exact absurd hlt (not_lt.2 (le_of_lt h))
    simp [cache.get, hl, hn]
  rw [hg]
  refine ⟨rfl, cache.Load_Delete_self _ _, ?_, fun k hk => cache.Load_Delete_ne _ hk⟩
  have hnone : AList.lookup key (cache.tmpMap (⟨c.set.Delete key⟩ : cache δ)) = none := by
    rw [lookup_tmpMap]
    exact cache.Load_Delete_self _ _
  exact fun hmem => AList.lookup_eq_none.1 hnone (AList.mem_keys.2 hmem)

/-- C8 at the store `{k ↦ {1, 0, 50}}` and clock reading 100. -/
theorem get_expired_prunes_witness :
    ((single "k" ⟨some 1, 0, 50⟩).set.Load "k" = some ⟨some 1, 0, 50⟩ ∧
      (50 : Int) ≠ 0 ∧ (50 : Int) < 100) ∧
    ((single "k" ⟨some 1, 0, 50⟩).get 100 "k").1 = (none, false) ∧
    ((single "k" ⟨some 1, 0, 50⟩).get 100 "k").2.set.Load "k" = none ∧
    "k" ∉ ((single "k" ⟨some 1, 0, 50⟩).get 100 "k").2.tmpMap.keys ∧
    ∀ k, k ≠ "k" → ((single "k" ⟨some 1, 0, 50⟩).get 100 "k").2.set.Load k
      = (single "k" ⟨some 1, 0, 50⟩).set.Load k :=
  ⟨by decide,
   get_expired_prunes (single "k" ⟨some 1, 0, 50⟩) 100 "k" ⟨some 1, 0, 50⟩
     (by decide) (by decide) (by decide)⟩

/-- An integer in the range of `int64` is its own reduction. -/
theorem wrapInt64_of_range (x : Int) (hlo : -2 ^ 63 ≤ x) (hhi : x < 2 ^ 63) :
    wrapInt64 x = x := by
  unfold wrapInt64
  omega

/-- What `Get` returns right after a `Put`, from the expiry that `Put` stored. -/
theorem Get_Put {δ : Type} (ec : externalCache δ) (now later : Int) (key : String)
    (v : Option δ) (ttl : Int) :
    ((ec.Put now key v ttl).Get later key).1 =
      if (if ttl = 0 then 0 else wrapInt64 (now + ttl)) = 0 ∨
          (if ttl = 0 then 0 else wrapInt64 (now + ttl)) > later
      then (v, true) else (none, false) := by
  simp only [externalCache.Get, externalCache.Put, cache.put, cache.get,
    cache.Load_Store_self]
  split_ifs <;> rfl

/-- C9: for `ttl >= 0`, clock readings `0 <= now <= later` (a clock reading is
a number of nanoseconds since the Unix epoch) and `now + ttl` in the range of
`int64`, a `Put(key, v, ttl)` at `now` followed by `Get(key)` at `later`
returns `(v, true)` when `ttl == 0` or `later < now + ttl`, and returns
`(nil, false)` when `ttl > 0` and `later > now + ttl`. -/
theorem Put_then_Get {δ : Type} (ec : externalCache δ) (now later : Int) (key : String)
    (v : Option δ) (ttl : Int) (hnow : 0 ≤ now) (httl : 0 ≤ ttl) (_hle : now ≤ later)
    (hhi : now + ttl < 2 ^ 63) :
    ((ttl = 0 ∨ later < now + ttl) →
      ((ec.Put now key v ttl).Get later key).1 = (v, true)) ∧
    ((0 < ttl ∧ later > now + ttl) →
      ((ec.Put now key v ttl).Get later key).1 = (none, false)) := by
  have hlo : -2 ^ 63 ≤ now + ttl := by
    have h0 : 0 ≤ now + ttl := add_nonneg hnow httl
    have hneg : (-2 ^ 63 : Int) ≤ 0 := by decide
    exact le_trans hneg h0
  rw [Get_Put, wrapInt64_of_range _ hlo hhi]
  constructor
  · rintro (h | h)
    · simp [h]
    · by_cases h0 : ttl = 0
      · simp [h0]
      · have : now + ttl > later := h
        simp [h0, this]
  · rintro ⟨hpos, hgt⟩
    have h0 : ttl ≠ 0 := ne_of_gt hpos
    have hne : now + ttl ≠ 0 := ne_of_gt (add_pos_of_nonneg_of_pos hnow hpos)
    have hng : ¬ now + ttl > later := not_lt.2 (le_of_lt hgt)
    simp [h0, hne, hng]

/-- C9 at `Put("a", "x", 10)` on the new cache at clock reading 100: `Get` at
105 returns `("x", true)`, `Get` at 111 returns `(nil, false)`. -/
theorem Put_then_Get_witness :
    ((0 : Int) ≤ 100 ∧ (0 : Int) ≤ 10 ∧ (100 : Int) ≤ 105 ∧ (100 : Int) ≤ 111 ∧
      (100 : Int) + 10 < 2 ^ 63) ∧
    ((NewCache.Put 100 "a" (some "x") 10).Get 105 "a").1 = (some "x", true) ∧
    ((NewCache.Put 100 "a" (some "x") 10).Get 111 "a").1 = (none, false) :=
  ⟨by decide,
   (Put_then_Get NewCache 100 105 "a" (some "x") 10 (by decide) (by decide)
      (by decide) (by decide)).1 (Or.inr (by decide)),
   (Put_then_Get NewCache 100 111 "a" (some "x") 10 (by decide) (by decide)
      (by decide) (by decide)).2 ⟨by decide, by decide⟩⟩

/-- C10, the code at the failing input: `Put("a", "x", 0)` on the new cache at
clock reading 100 stores an entry whose `LastWrite` is 0, not 100: the
`Value` literal in `Put` sets `Data` and `Expiry` only. -/
theorem Put_leaves_LastWrite_zero :
    (NewCache.Put 100 "a" (some "x") 0).cache.set.Load "a" = some ⟨some "x", 0, 0⟩ ∧
    ((NewCache.Put 100 "a" (some "x") 0).cache.set.Load "a").map Value.LastWrite
      ≠ some 100 := by
  decide

/-- C11 as stated fails: `Put("a", "x", ttl)` with the largest `time.Duration`
as `ttl`, at the clock reading `1800000000000000000` (January 2027), stores
an expiry that is not `now + ttl` but that sum reduced to `int64`, a negative
number. -/
theorem Put_expiry_wraps :
    ((0 : Int) < 9223372036854775807) ∧
    ((NewCache.Put 1800000000000000000 "a" (some "x") 9223372036854775807).cache.set.Load
        "a").map Value.Expiry = some (-7423372036854775809) ∧
    (-7423372036854775809 : Int) ≠ 1800000000000000000 + 9223372036854775807 := by
  decide

/-- C11, amended: for `ttl >= 0` with `now + ttl` in the range of `int64`,
after `Put(key, value, ttl)` at clock reading `now` the store maps `key` to an
entry whose data is `value` and whose expiry is 0 when `ttl == 0` and
`now + ttl` when `ttl > 0`, and the entry of every other key is unchanged. -/
theorem Put_stores_entry {δ : Type} (ec : externalCache δ) (now : Int) (key : String)
    (val : Option δ) (ttl : Int) (_httl : 0 ≤ ttl)
    (hlo : -2 ^ 63 ≤ now + ttl) (hhi : now + ttl < 2 ^ 63) :
    (∃ e, (ec.Put now key val ttl).cache.set.Load key = some e ∧ e.Data = val ∧
      (ttl = 0 → e.Expiry = 0) ∧ (0 < ttl → e.Expiry = now + ttl)) ∧
    ∀ k, k ≠ key → (ec.Put now key val ttl).cache.set.Load k = ec.cache.set.Load k := by
  constructor
  · refine ⟨_, cache.Load_Store_self _ _ _, rfl, ?_, ?_⟩
    · intro h0
      simp [h0]
    · intro hpos
      have h0 : ttl ≠ 0 := ne_of_gt hpos
      simp [h0, wrapInt64_of_range _ hlo hhi]
  · intro k hk
    exact cache.Load_Store_ne _ _ hk

/-- C11, amended, at `Put("a", 7, 10)` at clock reading 100 on the store
`{k ↦ {1, 10, 0}}`. -/
theorem Put_stores_entry_witness :
    ((0 : Int) ≤ 10 ∧ -2 ^ 63 ≤ (100 : Int) + 10 ∧ (100 : Int) + 10 < 2 ^ 63) ∧
    ((∃ e, ((⟨single "k" ⟨some 1, 10, 0⟩⟩ : externalCache Nat).Put 100 "a" (some 7)
          10).cache.set.Load "a" = some e ∧ e.Data = some 7 ∧
        ((10 : Int) = 0 → e.Expiry = 0) ∧ ((0 : Int) < 10 → e.Expiry = 100 + 10)) ∧
      ∀ k, k ≠ "a" →
        ((⟨single "k" ⟨some 1, 10, 0⟩⟩ : externalCache Nat).Put 100 "a" (some 7)
          10).cache.set.Load k = (single "k" ⟨some 1, 10, 0⟩).set.Load k) :=
  ⟨by decide,
   Put_stores_entry ⟨single "k" ⟨some 1, 10, 0⟩⟩ 100 "a" (some 7) 10
     (by decide) (by decide) (by decide)⟩

/-! ## The delta merges -/

/-- The loops of `mergeRecived` and `mergeDelta` compute the same thing. -/
theorem mergeRecivedLoop_eq_mergeDeltaLoop {δ : Type} (now : Int)
    (l : List (Sigma fun _ : String => Value δ)) (c : cache δ) :
    cache.mergeRecivedLoop now l c = cache.mergeDeltaLoop now l c := by
  induction l generalizing c with
  | nil => rfl
  | cons e rest ih =>
    obtain ⟨k, v⟩ := e
    have hstep : cache.mergeRecivedStep now c k v = cache.mergeDeltaStep now c k v := rfl
    rw [cache.mergeRecivedLoop, cache.mergeDeltaLoop, hstep]
    cases cache.mergeDeltaStep now c k v with
    | none => rfl
    | some c1 => exact ih c1

/-- An iteration of `mergeDelta` panics exactly when its key has no entry. -/
theorem mergeDeltaStep_eq_none_iff {δ : Type} (now : Int) (c : cache δ) (k : String)
    (v : Value δ) : cache.mergeDeltaStep now c k v = none ↔ c.set.Load k = none := by
  unfold cache.mergeDeltaStep
  cases c.set.Load k with
  | none => simp
  | some loc =>
    by_cases h1 : loc.LastWrite > v.LastWrite <;>
      by_cases h2 : loc.Expiry ≠ 0 ∧ loc.Expiry < now <;> simp [h1, h2]

/-- An iteration of `mergeDelta` on a key that has the local entry `loc`. -/
theorem mergeDeltaStep_of_Load {δ : Type} (now : Int) (c : cache δ) (k : String)
    (v loc : Value δ) (hloc : c.set.Load k = some loc) :
    ∃ c1, cache.mergeDeltaStep now c k v = some c1 ∧
      c1.set.Load k = cache.mergeDeltaKey now loc v := by
  unfold cache.mergeDeltaStep cache.mergeDeltaKey
  rw [hloc]
  dsimp only
  by_cases h1 : loc.LastWrite > v.LastWrite
  · rw [if_pos h1, if_pos h1]
    exact ⟨_, rfl, cache.Load_Delete_self _ _⟩
  · rw [if_neg h1, if_neg h1]
    by_cases h2 : loc.Expiry ≠ 0 ∧ loc.Expiry < now
    · rw [if_pos h2, if_pos h2]
      exact ⟨_, rfl, cache.Load_Delete_self _ _⟩
    · rw [if_neg h2, if_neg h2]
      exact ⟨_, rfl, cache.Load_Store_self _ _ _⟩

/-- An iteration of `mergeDelta` leaves the other keys as they are. -/
theorem Load_mergeDeltaStep_ne {δ : Type} (now : Int) (c c1 : cache δ) {k k' : String}
    (v : Value δ) (hs : cache.mergeDeltaStep now c k v = some c1) (h : k' ≠ k) :
    c1.set.Load k' = c.set.Load k' := by
  unfold cache.mergeDeltaStep at hs
  cases hl : c.set.Load k with
  | none => simp [hl] at hs
  | some loc =>
    rw [hl] at hs
    dsimp only at hs
    by_cases h1 : loc.LastWrite > v.LastWrite
    · rw [if_pos h1] at hs
      cases hs
      exact cache.Load_Delete_ne _ h
    · rw [if_neg h1] at hs
      by_cases h2 : loc.Expiry ≠ 0 ∧ loc.Expiry < now
      · rw [if_pos h2] at hs
        cases hs
        exact cache.Load_Delete_ne _ h
      · rw [if_neg h2] at hs
        cases hs
        exact cache.Load_Store_ne _ _ h

/-- A completed loop of `mergeDelta` leaves the keys it did not visit as they
are. -/
theorem Load_mergeDeltaLoop_of_not_mem {δ : Type} (now : Int)
    (l : List (Sigma fun _ : String => Value δ)) (c c1 : cache δ) (k : String)
    (hs : cache.mergeDeltaLoop now l c = some c1) (h : k ∉ l.keys) :
    c1.set.Load k = c.set.Load k := by
  induction l generalizing c with
  | nil =>
    simp only [cache.mergeDeltaLoop, Option.some.injEq] at hs
    rw [hs]
  | cons e rest ih =>
    obtain ⟨k0, v0⟩ := e
    simp only [List.keys_cons, List.mem_cons, not_or] at h
    rw [cache.mergeDeltaLoop] at hs
    cases hstep : cache.mergeDeltaStep now c k0 v0 with
    | none => simp [hstep] at hs
    | some c0 =>
      rw [hstep] at hs
      rw [ih c0 hs h.2, Load_mergeDeltaStep_ne now c c0 v0 hstep h.1]

/-- A completed loop of `mergeDelta`, on a key it visited: the key had a local
entry, and what is left is decided by that entry and the incoming one. -/
theorem Load_mergeDeltaLoop_of_mem {δ : Type} (now : Int)
    (l : List (Sigma fun _ : String => Value δ)) (hl : l.NodupKeys) (c c1 : cache δ)
    (k : String) (v : Value δ) (hs : cache.mergeDeltaLoop now l c = some c1)
    (h : Sigma.mk k v ∈ l) :
    ∃ loc, c.set.Load k = some loc ∧ c1.set.Load k = cache.mergeDeltaKey now loc v := by
  induction l generalizing c with
  | nil => simp at h
  | cons e rest ih =>
    obtain ⟨k0, v0⟩ := e
    rw [List.nodupKeys_cons] at hl
    rw [cache.mergeDeltaLoop] at hs
    cases hstep : cache.mergeDeltaStep now c k0 v0 with
    | none => simp [hstep] at hs
    | some c0 =>
      rw [hstep] at hs
      rcases List.mem_cons.1 h with heq | hmem
      · injection heq with hk hv
        subst hk
        subst hv
        cases hloc : c.set.Load k with
        | none =>
          have := (mergeDeltaStep_eq_none_iff now c k v).2 hloc
          rw [this] at hstep
          cases hstep
        | some loc =>
          obtain ⟨c2, h2, h3⟩ := mergeDeltaStep_of_Load now c k v loc hloc
          rw [hstep] at h2
          cases h2
          exact ⟨loc, rfl, by rw [Load_mergeDeltaLoop_of_not_mem now rest c0 c1 k hs hl.1, h3]⟩
      · have hne : k ≠ k0 := by
          intro hk
          subst hk
          exact hl.1 (List.mem_keys.2 ⟨v, hmem⟩)
        obtain ⟨loc, h1, h2⟩ := ih hl.2 c0 hs hmem
        exact ⟨loc, by rw [← Load_mergeDeltaStep_ne now c c0 v0 hstep hne, h1], h2⟩

/-- The loop of `mergeDelta` completes exactly when every key it visits has a
local entry. -/
theorem mergeDeltaLoop_isSome_iff {δ : Type} (now : Int)
    (l : List (Sigma fun _ : String => Value δ)) (hl : l.NodupKeys) (c : cache δ) :
    (cache.mergeDeltaLoop now l c).isSome ↔ ∀ k, k ∈ l.keys → (c.set.Load k).isSome := by
  induction l generalizing c with
  | nil => simp [cache.mergeDeltaLoop]
  | cons e rest ih =>
    obtain ⟨k0, v0⟩ := e
    rw [List.nodupKeys_cons] at hl
    rw [cache.mergeDeltaLoop]
    cases hstep : cache.mergeDeltaStep now c k0 v0 with
    | none =>
      have hnone := (mergeDeltaStep_eq_none_iff now c k0 v0).1 hstep
      constructor
      · intro h
        simp at h
      · intro h
        have := h k0 (by simp)
        rw [hnone] at this
        simp at this
    | some c0 =>
      have hk0 : (c.set.Load k0).isSome := by
        cases hloc : c.set.Load k0 with
        | none =>
          rw [(mergeDeltaStep_eq_none_iff now c k0 v0).2 hloc] at hstep
          cases hstep
        | some loc => rfl
      have hother : ∀ k, k ∈ rest.keys → c0.set.Load k = c.set.Load k := by
        intro k hk
        have hne : k ≠ k0 := by
          intro h
          subst h
          exact hl.1 hk
        exact Load_mergeDeltaStep_ne now c c0 v0 hstep hne
      show (cache.mergeDeltaLoop now rest c0).isSome ↔ _
      rw [ih hl.2 c0]
      constructor
      · intro h k hk
        simp only [List.keys_cons, List.mem_cons] at hk
        rcases hk with hk | hk
        · rw [hk]
          exact hk0
        · rw [← hother k hk]
          exact h k hk
      · intro h k hk
        rw [hother k hk]
        exact h k (by simp [hk])

/-- C12, the code at the failing input: on the empty store, `mergeDelta` and
`mergeRecived` with the batch `{k ↦ {2, 20, 0}}` panic: `Load` finds nothing,
and lines 111 and 131 assert `val.(Value)` on the nil value. -/
theorem mergeDelta_panics_on_new_key :
    emptyCache.set.Load "k" = none ∧
    emptyCache.mergeDelta 100 (singleMap "k" ⟨some 2, 20, 0⟩) = none ∧
    emptyCache.mergeRecived 100 (singleMap "k" ⟨some 2, 20, 0⟩) = none := by
  decide

/-- C13, the code at the failing input: the store holds `k ↦ {1, 10, 0}`, newer
than the incoming `{2, 5, 0}`, and the batch also has the key `j`, which has
no local entry and is visited first: `mergeDelta` and `mergeRecived` panic on
`j`, before the entry of `k` is deleted. -/
theorem mergeDelta_panics_before_local_winner :
    (single "k" ⟨some 1, 10, 0⟩).set.Load "k" = some ⟨some 1, 10, 0⟩ ∧
    AList.lookup "k" (pairMap "j" ⟨some 3, 1, 0⟩ "k" ⟨some 2, 5, 0⟩)
      = some ⟨some 2, 5, 0⟩ ∧
    (pairMap "j" ⟨some 3, 1, 0⟩ "k" ⟨some 2, 5, 0⟩).keys = ["j", "k"] ∧
    (single "k" ⟨some 1, 10, 0⟩).mergeDelta 100
      (pairMap "j" ⟨some 3, 1, 0⟩ "k" ⟨some 2, 5, 0⟩) = none ∧
    (single "k" ⟨some 1, 10, 0⟩).mergeRecived 100
      (pairMap "j" ⟨some 3, 1, 0⟩ "k" ⟨some 2, 5, 0⟩) = none := by
  decide

/-- C14, the code at the failing input: the store holds `j ↦ {1, 10, 0}` and no
entry for `k`; `mergeDelta` and `mergeRecived` with the batch
`{k ↦ {2, 20, 0}}` panic instead of storing the incoming entry under `k`. -/
theorem mergeDelta_panics_on_absent_local :
    (single "j" ⟨some 1, 10, 0⟩).set.Load "k" = none ∧
    (single "j" ⟨some 1, 10, 0⟩).mergeDelta 100 (singleMap "k" ⟨some 2, 20, 0⟩) = none ∧
    (single "j" ⟨some 1, 10, 0⟩).mergeRecived 100 (singleMap "k" ⟨some 2, 20, 0⟩)
      = none := by
  decide

/-- C15, the code at the failing input: the store holds `k ↦ {1, 10, 50}`,
expired at clock reading 100, and the batch has `k` and also `j`, which has no
local entry and is visited first: `mergeDelta` and `mergeRecived` panic on `j`
before the expired entry is deleted.  `mergeComplete` with the same mapping
replaces the expired entry by the newer incoming one. -/
theorem mergeDelta_panics_before_pruning :
    (single "k" ⟨some 1, 10, 50⟩).set.Load "k" = some ⟨some 1, 10, 50⟩ ∧
    (pairMap "j" ⟨some 3, 1, 0⟩ "k" ⟨some 2, 20, 0⟩).keys = ["j", "k"] ∧
    (single "k" ⟨some 1, 10, 50⟩).mergeDelta 100
      (pairMap "j" ⟨some 3, 1, 0⟩ "k" ⟨some 2, 20, 0⟩) = none ∧
    (single "k" ⟨some 1, 10, 50⟩).mergeRecived 100
      (pairMap "j" ⟨some 3, 1, 0⟩ "k" ⟨some 2, 20, 0⟩) = none ∧
    ((single "k" ⟨some 1, 10, 50⟩).mergeComplete 100
      (pairMap "j" ⟨some 3, 1, 0⟩ "k" ⟨some 2, 20, 0⟩)).set.Load "k"
      = some ⟨some 2, 20, 0⟩ := by
  decide

/-- C16: on the empty batch `mergeRecived` returns nil and leaves the store
unchanged, `mergeDelta` returns the store itself, unchanged, and `mergeRecived`
returns nil only when the batch is empty. -/
theorem mergeRecived_empty_batch {δ : Type} (c : cache δ) (now : Int) :
    c.mergeRecived now ∅ = some (none, c) ∧
    c.mergeDelta now ∅ = some c ∧
    ∀ set : GoMap δ, (c.mergeRecived now set).map Prod.fst = some none ↔ set = ∅ := by
  refine ⟨rfl, rfl, ?_⟩
  intro set
  constructor
  · intro h
    unfold cache.mergeRecived at h
    cases hloop : cache.mergeRecivedLoop now set.entries c with
    | none => simp [hloop] at h
    | some c1 =>
      rw [hloop] at h
      by_cases hlen : set.entries.length = 0
      · exact AList.ext (List.length_eq_zero.1 hlen)
      · simp [hlen] at h
  · intro h
    subst h
    rfl

/-- C18: `mergeRecived` is `mergeDelta` with another returned value: both panic
on the same inputs, and when `mergeDelta` completes, leaving the store `c1`
(which is also what it returns), `mergeRecived` leaves the same store and
returns it too unless the batch is empty, in which case it returns nil. -/
theorem mergeRecived_eq_mergeDelta {δ : Type} (c : cache δ) (now : Int) (set : GoMap δ) :
    c.mergeRecived now set =
      (c.mergeDelta now set).map
        (fun c1 => (if set.entries.length = 0 then none else some c1, c1)) := by
  unfold cache.mergeRecived cache.mergeDelta
  rw [mergeRecivedLoop_eq_mergeDeltaLoop]
  cases cache.mergeDeltaLoop now set.entries c with
  | none => rfl
  | some c1 =>
    by_cases hlen : set.entries.length = 0 <;> simp [hlen]

/-! ## Frame and traversal order -/

/-- A key without an entry in a map is not among the keys the loop visits. -/
theorem not_mem_keys_of_lookup_eq_none {δ : Type} (m : GoMap δ) (k : String)
    (hk : AList.lookup k m = none) : k ∉ m.entries.keys := by
  have := AList.lookup_eq_none.1 hk
  simpa [AList.mem_keys, AList.keys] using this

/-- C19: a merge leaves unchanged the entry, or the absence of an entry, of
every key that does not occur in the mapping or batch: `mergeComplete` always,
`mergeDelta` and `mergeRecived` whenever they complete. -/
theorem merge_frame {δ : Type} (c : cache δ) (now : Int) (m : GoMap δ) (k : String)
    (hk : AList.lookup k m = none) :
    (c.mergeComplete now m).set.Load k = c.set.Load k ∧
    (∀ c1, c.mergeDelta now m = some c1 → c1.set.Load k = c.set.Load k) ∧
    (∀ r c1, c.mergeRecived now m = some (r, c1) → c1.set.Load k = c.set.Load k) := by
  have hnot := not_mem_keys_of_lookup_eq_none m k hk
  refine ⟨?_, ?_, ?_⟩
  · rw [cache.Load_mergeComplete, hk]
  · intro c1 h
    exact Load_mergeDeltaLoop_of_not_mem now m.entries c c1 k h hnot
  · intro r c1 h
    unfold cache.mergeRecived at h
    rw [mergeRecivedLoop_eq_mergeDeltaLoop] at h
    cases hloop : cache.mergeDeltaLoop now m.entries c with
    | none => simp [hloop] at h
    | some c2 =>
      rw [hloop] at h
      have hc : c2 = c1 := by
        by_cases hlen : m.entries.length = 0
        · simp only [hlen, if_true, Option.some.injEq, Prod.mk.injEq] at h
          exact h.2
        · simp only [hlen, if_false, Option.some.injEq, Prod.mk.injEq] at h
          exact h.2
      subst hc
      exact Load_mergeDeltaLoop_of_not_mem now m.entries c c2 k hloop hnot

/-- C19 at the store `{k ↦ {1, 10, 50}, j ↦ {4, 10, 0}}` and the batch
`{j ↦ {5, 20, 0}}` at clock reading 100: the three merges complete, and the
expired entry of `k`, which they do not visit, stays in the store. -/
theorem merge_frame_witness :
    (AList.lookup "k" (singleMap "j" ⟨some 5, 20, 0⟩) = none ∧
      ((⟨pairMap "k" ⟨some 1, 10, 50⟩ "j" ⟨some 4, 10, 0⟩⟩ : cache Nat).mergeDelta 100
        (singleMap "j" ⟨some 5, 20, 0⟩)).isSome = true ∧
      ((⟨pairMap "k" ⟨some 1, 10, 50⟩ "j" ⟨some 4, 10, 0⟩⟩ : cache Nat).mergeRecived 100
        (singleMap "j" ⟨some 5, 20, 0⟩)).isSome = true) ∧
    (((⟨pairMap "k" ⟨some 1, 10, 50⟩ "j" ⟨some 4, 10, 0⟩⟩ : cache Nat).mergeComplete 100
        (singleMap "j" ⟨some 5, 20, 0⟩)).set.Load "k"
      = (⟨pairMap "k" ⟨some 1, 10, 50⟩ "j" ⟨some 4, 10, 0⟩⟩ : cache Nat).set.Load "k" ∧
    (∀ c1, (⟨pairMap "k" ⟨some 1, 10, 50⟩ "j" ⟨some 4, 10, 0⟩⟩ : cache Nat).mergeDelta 100
        (singleMap "j" ⟨some 5, 20, 0⟩) = some c1 →
      c1.set.Load "k"
        = (⟨pairMap "k" ⟨some 1, 10, 50⟩ "j" ⟨some 4, 10, 0⟩⟩ : cache Nat).set.Load "k") ∧
    (∀ r c1, (⟨pairMap "k" ⟨some 1, 10, 50⟩ "j" ⟨some 4, 10, 0⟩⟩ : cache Nat).mergeRecived 100
        (singleMap "j" ⟨some 5, 20, 0⟩) = some (r, c1) →
      c1.set.Load "k"
        = (⟨pairMap "k" ⟨some 1, 10, 50⟩ "j" ⟨some 4, 10, 0⟩⟩ : cache Nat).set.Load "k")) :=
  ⟨by decide,
   merge_frame ⟨pairMap "k" ⟨some 1, 10, 50⟩ "j" ⟨some 4, 10, 0⟩⟩ 100
     (singleMap "j" ⟨some 5, 20, 0⟩) "k" (by decide)⟩

/-- The store after the loop of `mergeComplete` over a list with distinct
keys, key by key. -/
theorem Load_mergeCompleteLoop {δ : Type} (now : Int)
    (l : List (Sigma fun _ : String => Value δ)) (hl : l.NodupKeys) (c : cache δ)
    (k : String) :
    (cache.mergeCompleteLoop now l c).set.Load k =
      match l.dlookup k with
      | none => c.set.Load k
      | some v => cache.mergeCompleteKey now (c.set.Load k) v := by
  cases hd : l.dlookup k with
  | none =>
    exact cache.Load_mergeCompleteLoop_of_not_mem now l c k (List.dlookup_eq_none.1 hd)
  | some v =>
    exact cache.Load_mergeCompleteLoop_of_mem now l hl c k v (List.of_mem_dlookup hd)

/-- C20: for a list of pairs with pairwise distinct keys, the loop of
`mergeComplete` over the list and over any permutation of it leave the store
with the same contents; what is left under a key depends only on the local
entry of that key, the incoming entry of that key and the clock. -/
theorem mergeComplete_traversal_order {δ : Type} (c : cache δ) (now : Int)
    (l1 l2 : List (Sigma fun _ : String => Value δ)) (hnd : l1.NodupKeys)
    (hp : l1.Perm l2) (k : String) :
    (cache.mergeCompleteLoop now l1 c).set.Load k =
      (cache.mergeCompleteLoop now l2 c).set.Load k ∧
    (cache.mergeCompleteLoop now l1 c).set.Load k =
      match l1.dlookup k with
      | none => c.set.Load k
      | some v => cache.mergeCompleteKey now (c.set.Load k) v := by
  have hnd2 : l2.NodupKeys := (List.perm_nodupKeys hp).1 hnd
  refine ⟨?_, Load_mergeCompleteLoop now l1 hnd c k⟩
  rw [Load_mergeCompleteLoop now l1 hnd c k, Load_mergeCompleteLoop now l2 hnd2 c k,
    List.perm_dlookup k hnd hnd2 hp]

/-- C20 at the store `{a ↦ {1, 10, 1000}}`, clock reading 100, and the pairs
`a ↦ {2, 20, 1000}`, `b ↦ {3, 5, 1000}` in both orders. -/
theorem mergeComplete_traversal_order_witness :
    (twoPairs.NodupKeys ∧ twoPairs.Perm twoPairsSwapped) ∧
    ((cache.mergeCompleteLoop 100 twoPairs (single "a" ⟨some 1, 10, 1000⟩)).set.Load "b" =
      (cache.mergeCompleteLoop 100 twoPairsSwapped
        (single "a" ⟨some 1, 10, 1000⟩)).set.Load "b") ∧
    (cache.mergeCompleteLoop 100 twoPairs (single "a" ⟨some 1, 10, 1000⟩)).set.Load "a" =
      some ⟨some 2, 20, 1000⟩ ∧
    (cache.mergeCompleteLoop 100 twoPairsSwapped
      (single "a" ⟨some 1, 10, 1000⟩)).set.Load "a" = some ⟨some 2, 20, 1000⟩ := by
  have hnd : twoPairs.NodupKeys := by
    simp [twoPairs, List.nodupKeys_cons, List.keys]
  have hp : twoPairs.Perm twoPairsSwapped := List.Perm.swap _ _ _
  have ha : (cache.mergeCompleteLoop 100 twoPairs
      (single "a" ⟨some 1, 10, 1000⟩)).set.Load "a" = some ⟨some 2, 20, 1000⟩ := by
    decide
  exact ⟨⟨hnd, hp⟩,
    (mergeComplete_traversal_order (single "a" ⟨some 1, 10, 1000⟩) 100 twoPairs
      twoPairsSwapped hnd hp "b").1,
    ha,
    ((mergeComplete_traversal_order (single "a" ⟨some 1, 10, 1000⟩) 100 twoPairs
      twoPairsSwapped hnd hp "a").1).symm.trans ha⟩

end Vegamcache
